import Mathlib

/-!
Verification of the spk-tools record-log engine (`src/main.rs`).

The development shallowly embeds the core of the program:

* the record scanner `get_buffer`, which walks a byte stream with an opaque
  decode oracle (`Stoatpack::deserialise`) and collects the byte span of every
  successful decode together with a count of failed decode attempts;
* the repair pass `fix` and the permutation pass `shuffle`, which rewrite the
  file from the scanner's output;
* the statistics pass `count`, which decodes games directly and accumulates
  outcome tallies, position counts, reversal flags and a king-square heatmap;
* the fixed-files accounting of the `main` loop in fix mode.

Bytes are modelled as `Nat` (their numeric value is never inspected), files as
`List Nat`, and the opaque decoder as a function from the remaining stream to
a decode result that reports how many bytes the attempt consumed — on success
and on failure alike, mirroring the way `deserialise` advances the underlying
`BufReader` cursor. The scan loop of the source is not structurally
terminating (a failure that consumes no bytes re-probes the same offset
forever), so loops are embedded fuel-indexed: `none` means the loop did not
finish within the given fuel. Machine integers (`i16` evaluation scores and
`eval_limit`) are embedded as `Int` with explicit two's-complement wrapping
where the source can overflow (release-mode semantics of `i16::abs` and
unary negation).
-/

namespace SpkTools

/-- Result of one invocation of the decode oracle on the remaining stream:
either a decoded record with the number of bytes consumed, or a failure that
consumed `consumed` bytes before being detected. -/
inductive DecodeResult (R : Type) where
  | ok (record : R) (consumed : Nat)
  | err (consumed : Nat)
deriving Repr, DecidableEq

/-- The opaque decode oracle (`Stoatpack::deserialise`), as a function of the
remaining byte stream. -/
def Decoder (R : Type) : Type := List Nat → DecodeResult R

/-- State of the scan loop of `get_buffer` (src/main.rs:325-353): the reader
position, the `prev_pos` marker of the last successful decode boundary, the
collected spans (`buffer`), and the broken-record counter. The `recs` field is
a ghost field recording the decoded records the oracle returned (the source
discards them with `Ok(_)`); it does not influence any transition. -/
structure ScanState (R : Type) where
  pos : Nat
  prevPos : Nat
  buffer : List (List Nat)
  recs : List R
  broken : Nat
deriving Repr, DecidableEq

/-- One iteration of the `get_buffer` loop body. On `Ok`, the span
`data[prev_pos..curr_pos]` is read back and pushed, and `prev_pos` advances to
the new cursor; on `Err`, only the broken counter is bumped and the cursor
stays wherever the failed decode left it (`prev_pos` is not touched). -/
def scanStep {R : Type} (d : Decoder R) (data : List Nat) (s : ScanState R) : ScanState R :=
  match d (data.drop s.pos) with
  | .ok r c =>
    let curr := s.pos + c
    { pos := curr
      prevPos := curr
      buffer := s.buffer ++ [(data.drop s.prevPos).take (curr - s.prevPos)]
      recs := s.recs ++ [r]
      broken := s.broken }
  | .err c =>
    { s with pos := s.pos + c, broken := s.broken + 1 }

/-- Fuel-indexed iteration of the `while reader.stream_position()? < len` loop
of `get_buffer`. Once the position reaches end of file the state is fixed. -/
def scanSteps {R : Type} (d : Decoder R) (data : List Nat) : Nat → ScanState R → ScanState R
  | 0, s => s
  | n + 1, s =>
    if s.pos < data.length then scanSteps d data n (scanStep d data s) else s

/-- Initial scan state: cursor at offset 0, nothing collected. -/
def initScan (R : Type) : ScanState R := ⟨0, 0, [], [], 0⟩

/-- The scanner `get_buffer` (src/main.rs:325-353), fuel-indexed: `some` is the
final state when the loop reaches end of file within `fuel` iterations, `none`
means the loop has not terminated after `fuel` iterations. -/
def get_buffer {R : Type} (d : Decoder R) (data : List Nat) (fuel : Nat) :
    Option (ScanState R) :=
  let s := scanSteps d data fuel (initScan R)
  if s.pos < data.length then none else some s

/-- The file rewrite `write_buffer` (src/main.rs:355-361): seek to 0, truncate,
write the whole buffer — the file contents become exactly the buffer. -/
def write_buffer (buffer : List Nat) : List Nat := buffer

/-- The repair pass `fix` (src/main.rs:280-304) on file contents `data`:
returns `(new file contents, records, broken_records, trimmed_bytes)`. A clean
file is left untouched; otherwise the concatenation of the valid spans is
written back and the trimmed byte count is the length difference. -/
def fixOp {R : Type} (d : Decoder R) (data : List Nat) (fuel : Nat) :
    Option (List Nat × Nat × Nat × Nat) :=
  match get_buffer d data fuel with
  | none => none
  | some st =>
    if st.broken = 0 then
      some (data, st.buffer.length, st.broken, 0)
    else
      some (write_buffer st.buffer.flatten, st.buffer.length, st.broken,
        data.length - st.buffer.flatten.length)

/-- The permutation pass `shuffle` (src/main.rs:306-323) on file contents
`data`, with the seeded rand shuffle abstracted as a function `sh` on the list
of spans: returns `(new file contents, records, broken_records)`. With any
broken record the pass is skipped and the file is untouched. -/
def shuffleOp {R : Type} (d : Decoder R) (sh : List (List Nat) → List (List Nat))
    (data : List Nat) (fuel : Nat) : Option (List Nat × Nat × Nat) :=
  match get_buffer d data fuel with
  | none => none
  | some st =>
    if st.broken = 0 then
      some (write_buffer (sh st.buffer).flatten, st.buffer.length, st.broken)
    else
      some (data, st.buffer.length, st.broken)

/-- Game outcome (`stoatformat::Outcome`): `SenteWin` is a black win,
`SenteLoss` a white win (src/main.rs:224-228). -/
inductive Outcome where
  | SenteWin
  | SenteLoss
  | Draw
deriving Repr, DecidableEq

/-- Side to move (`shogi::core::Color`). -/
inductive Color where
  | SENTE
  | GOTE
deriving Repr, DecidableEq

/-- A decoded record (`Stoatpack` game): starting position, ordered
`(move, evaluation score)` pairs, and the outcome. Position and move types are
opaque; scores are `i16` values embedded as `Int`. -/
structure Game (P M : Type) where
  startpos : P
  wdl : Outcome
  moves : List (M × Int)
deriving Repr

/-- The external rules engine consumed by `count`: side to move, the king
square of a given color (`piece_bb(KING.with_color(c)).lsb()`, total here
because every legal shogi position has both kings), the 180-degree board
rotation `Square::rotate`, and move application. Squares are their
`Square::idx()` values, `Fin 81`. -/
structure Rules (P M : Type) where
  stm : P → Color
  kingOf : P → Color → Fin 81
  rotate : Fin 81 → Fin 81
  applyMove : P → M → P

/-- Wrap an integer into the `i16` range `[-32768, 32767]` (two's
complement). -/
def wrap16 (x : Int) : Int := (x + 32768) % 65536 - 32768

/-- Release-mode `i16::abs`: the absolute value, wrapped; `(-32768).abs()`
wraps back to `-32768`. -/
def absI16 (s : Int) : Int := wrap16 |s|

/-- Release-mode `i16` unary negation: `-(-32768)` wraps back to `-32768`. -/
def negI16 (e : Int) : Int := wrap16 (-e)

/-- Position contribution of one game (src/main.rs:230-235): one for the
start position plus one per move whose (wrapped) absolute score is within
`eval_limit`. -/
def gamePositions {P M : Type} (limit : Int) (g : Game P M) : Nat :=
  (g.moves.filter (fun p => decide (absI16 p.2 ≤ limit))).length + 1

/-- Position contribution as the spec words it (spec §4.4): one for the start
position plus one per move whose mathematical absolute score is within
`eval_limit`. Stated from the spec for comparison with `gamePositions`. -/
def specPositions {P M : Type} (limit : Int) (g : Game P M) : Nat :=
  1 + (g.moves.filter (fun p => decide (|p.2| ≤ limit))).length

/-- Reversal test of one game (src/main.rs:237-253): a black win with some
score `≤ -eval_limit` (negation wrapped, as in the source's `-eval_limit`),
or a white win with some score `≥ eval_limit`. -/
def gameIsReversal {P M : Type} (limit : Int) (g : Game P M) : Bool :=
  (decide (g.wdl = Outcome.SenteWin) &&
      decide (0 < (g.moves.filter (fun p => decide (p.2 ≤ negI16 limit))).length)) ||
  (decide (g.wdl = Outcome.SenteLoss) &&
      decide (0 < (g.moves.filter (fun p => decide (limit ≤ p.2))).length))

/-- Reversal condition as the spec words it (spec §4.4): black win with some
score `≤ -eval_limit` (mathematical negation), or white win with some score
`≥ eval_limit`. Stated from the spec for comparison with `gameIsReversal`. -/
def specReversal {P M : Type} (limit : Int) (g : Game P M) : Prop :=
  (g.wdl = Outcome.SenteWin ∧ ∃ p ∈ g.moves, p.2 ≤ -limit) ∨
  (g.wdl = Outcome.SenteLoss ∧ ∃ p ∈ g.moves, limit ≤ p.2)

instance {P M : Type} (limit : Int) (g : Game P M) : Decidable (specReversal limit g) := by
  unfold specReversal
  infer_instance

/-- The running tallies of the `count` pass. -/
structure Stats where
  positions : Nat
  blackWins : Nat
  whiteWins : Nat
  draws : Nat
  reverses : Nat
deriving Repr, DecidableEq

/-- Per-game update of the tallies (src/main.rs:224-253). -/
def updStats {P M : Type} (limit : Int) (g : Game P M) (s : Stats) : Stats :=
  { positions := s.positions + gamePositions limit g
    blackWins := s.blackWins + (if g.wdl = Outcome.SenteWin then 1 else 0)
    whiteWins := s.whiteWins + (if g.wdl = Outcome.SenteLoss then 1 else 0)
    draws := s.draws + (if g.wdl = Outcome.Draw then 1 else 0)
    reverses := s.reverses + (if gameIsReversal limit g then 1 else 0) }

/-- The 81-bin king-square heatmap (`king_squares: [u64; 81]`). -/
def Heatmap : Type := Fin 81 → Nat

/-- Increment one heatmap bin. -/
def bump (h : Heatmap) (k : Fin 81) : Heatmap :=
  Function.update h k (h k + 1)

/-- Sum of all 81 heatmap bins. -/
def sumHeat (h : Heatmap) : Nat := ∑ i : Fin 81, h i

/-- The square canonicalisation `relative_square` (src/main.rs:363-369). -/
def relative_square {P M : Type} (ru : Rules P M) (color : Color) (square : Fin 81) : Fin 81 :=
  if color = Color.SENTE then square else ru.rotate square

/-- The heatmap observation made at a position (src/main.rs:256-262): the
side-to-move's king square in canonical orientation. -/
def kingObs {P M : Type} (ru : Rules P M) (p : P) : Fin 81 :=
  relative_square ru (ru.stm p) (ru.kingOf p (ru.stm p))

/-- One move of the heatmap replay (src/main.rs:264-273): apply the move,
then observe the new position. -/
def replayStep {P M : Type} (ru : Rules P M) (a : P × Heatmap) (mv : M × Int) : P × Heatmap :=
  let p := ru.applyMove a.1 mv.1
  (p, bump a.2 (kingObs ru p))

/-- Replay of one game for the heatmap (src/main.rs:255-274, `!quick` branch):
observe the start position, then apply each move in recorded order and observe
after each. -/
def replayGame {P M : Type} (ru : Rules P M) (g : Game P M) (h : Heatmap) : Heatmap :=
  (g.moves.foldl (replayStep ru) (g.startpos, bump h (kingObs ru g.startpos))).2

/-- Full per-game step of the `count` loop body: tallies plus (unless `quick`)
the heatmap replay. -/
def stepGame {P M : Type} (ru : Rules P M) (quick : Bool) (limit : Int)
    (a : Stats × Heatmap) (g : Game P M) : Stats × Heatmap :=
  (updStats limit g a.1, if quick then a.2 else replayGame ru g a.2)

/-- Fuel-indexed `count` loop (src/main.rs:220-275). A decode failure is
propagated immediately (`Stoatpack::deserialise(&mut reader)?`), aborting the
pass with an error; `none` means the loop did not finish within `fuel`. -/
def countLoop {P M : Type} (d : Decoder (Game P M)) (ru : Rules P M) (quick : Bool)
    (limit : Int) (data : List Nat) :
    Nat → Nat → Stats × Heatmap → Option (Except Unit (Stats × Heatmap))
  | fuel, pos, acc =>
    if pos < data.length then
      match fuel with
      | 0 => none
      | fuel + 1 =>
        match d (data.drop pos) with
        | .err _ => some (.error ())
        | .ok g c => countLoop d ru quick limit data fuel (pos + c) (stepGame ru quick limit acc g)
    else some (.ok acc)

/-- The statistics pass `count` (src/main.rs:205-278) on file contents `data`,
starting from the given tallies and (shared, cross-file) heatmap. -/
def countFile {P M : Type} (d : Decoder (Game P M)) (ru : Rules P M) (quick : Bool)
    (limit : Int) (data : List Nat) (fuel : Nat) (s : Stats) (h : Heatmap) :
    Option (Except Unit (Stats × Heatmap)) :=
  countLoop d ru quick limit data fuel 0 (s, h)

/-- The fix-mode accounting of the `main` loop (src/main.rs:125-134): fold the
per-file broken-record counts, accumulating `total_broken_records` and bumping
`fixed_files` after each file for which the cumulative total is nonzero.
Returns `(total_broken_records, fixed_files)`. -/
def fixFold (acc : Nat × Nat) (b : Nat) : Nat × Nat :=
  let tb := acc.1 + b
  (tb, if tb ≠ 0 then acc.2 + 1 else acc.2)

def mainFixCounts (brokens : List Nat) : Nat × Nat :=
  brokens.foldl fixFold (0, 0)

/-- A byte block that the oracle decodes exactly: nonempty, and on any stream
starting with `b` the oracle succeeds with record `r` consuming exactly the
block. This is the behaviour of a well-formed serialised record under a
deterministic streaming decoder. -/
def ExactBlock {R : Type} (d : Decoder R) (b : List Nat) (r : R) : Prop :=
  1 ≤ b.length ∧ ∀ t : List Nat, d (b ++ t) = .ok r b.length

/-- A list of span/record pairs, each decoded exactly by the oracle. -/
def ExactBlocks {R : Type} (d : Decoder R) (bs : List (List Nat × R)) : Prop :=
  ∀ p ∈ bs, ExactBlock d p.1 p.2

/-- An undecodable tail: at every offset into `tail` the oracle fails,
consuming at least one byte and not reading past end of file. -/
def TailUndecodable {R : Type} (d : Decoder R) (tail : List Nat) : Prop :=
  ∀ k, k < tail.length →
    ∃ c, 1 ≤ c ∧ k + c ≤ tail.length ∧ d (tail.drop k) = .err c

/-! ### Scanner lemmas -/

theorem scanSteps_absorb {R : Type} (d : Decoder R) (data : List Nat) :
    ∀ (m : Nat) (s : ScanState R), ¬ s.pos < data.length → scanSteps d data m s = s := by
  intro m
  induction m with
  | zero => intro s _; rfl
  | succ n ih =>
    intro s h
    simp only [scanSteps, if_neg h]

theorem scanSteps_add {R : Type} (d : Decoder R) (data : List Nat) :
    ∀ (a b : Nat) (s : ScanState R),
      scanSteps d data (a + b) s = scanSteps d data b (scanSteps d data a s) := by
  intro a
  induction a with
  | zero =>
    intro b s
    rw [Nat.zero_add]
    rfl
  | succ n ih =>
    intro b s
    rw [Nat.succ_add]
    by_cases h : s.pos < data.length
    · simp only [scanSteps, if_pos h]
      exact ih b (scanStep d data s)
    · simp only [scanSteps, if_neg h]
      rw [scanSteps_absorb d data b s h]

/-- Scanning a stream positioned at the start of a run of exactly decodable
blocks consumes one block per iteration: after `bs.length` iterations every
block has been pushed as a span (and its record collected), the cursor and the
`prev_pos` marker sit at the end of the run, and no break was counted. -/
theorem scanSteps_blocks {R : Type} (d : Decoder R) :
    ∀ (bs : List (List Nat × R)) (pre rest data : List Nat) (s : ScanState R),
      ExactBlocks d bs →
      data = pre ++ (bs.map Prod.fst).flatten ++ rest →
      s.pos = pre.length → s.prevPos = pre.length →
      scanSteps d data bs.length s =
        { pos := pre.length + ((bs.map Prod.fst).flatten).length
          prevPos := pre.length + ((bs.map Prod.fst).flatten).length
          buffer := s.buffer ++ bs.map Prod.fst
          recs := s.recs ++ bs.map Prod.snd
          broken := s.broken } := by
  intro bs
  induction bs with
  | nil =>
    intro pre rest data s _ hdata hpos hprev
    cases s
    simp_all [scanSteps]
  | cons hd tl ih =>
    intro pre rest data s hEx hdata hpos hprev
    obtain ⟨b, r⟩ := hd
    have hb : ExactBlock d b r := hEx (b, r) (List.mem_cons_self _ _)
    have htl : ExactBlocks d tl := fun p hp => hEx p (List.mem_cons_of_mem _ hp)
    have hdata' : data = pre ++ (b ++ ((tl.map Prod.fst).flatten ++ rest)) := by
      simp only [hdata, List.map_cons, List.flatten_cons, List.append_assoc]
    have hlen : s.pos < data.length := by
      rw [hdata', hpos]
      simp only [List.length_append]
      have := hb.1
      omega
    show scanSteps d data (tl.length + 1) s = _
    have hstep : scanSteps d data (tl.length + 1) s
        = scanSteps d data tl.length (scanStep d data s) := by
      simp only [scanSteps, if_pos hlen]
    rw [hstep]
    have hdrop : data.drop s.pos = b ++ ((tl.map Prod.fst).flatten ++ rest) := by
      rw [hdata', hpos, List.drop_left]
    have hdec : d (data.drop s.pos) = .ok r b.length := by
      rw [hdrop]; exact hb.2 _
    have hspan : (data.drop pre.length).take (pre.length + b.length - pre.length) = b := by
      rw [Nat.add_sub_cancel_left, hdata', List.drop_left, List.take_left]
    have hstep2 : scanStep d data s =
        { pos := pre.length + b.length
          prevPos := pre.length + b.length
          buffer := s.buffer ++ [b]
          recs := s.recs ++ [r]
          broken := s.broken } := by
      simp only [scanStep, hdec]
      simp only [hpos, hprev, hspan]
    rw [hstep2]
    have := ih (pre ++ b) rest data
      { pos := pre.length + b.length
        prevPos := pre.length + b.length
        buffer := s.buffer ++ [b]
        recs := s.recs ++ [r]
        broken := s.broken }
      htl
      (by rw [hdata']; simp [List.append_assoc])
      (by simp [List.length_append])
      (by simp [List.length_append])
    rw [this]
    simp only [List.length_append, List.map_cons, List.flatten_cons, List.append_assoc,
      List.singleton_append, Nat.add_assoc]

/-- Scanning a stream positioned inside an undecodable tail only counts broken
records: the cursor walks to end of file, nothing is pushed, and at least one
break is counted when the remainder is nonempty. -/
theorem scanSteps_tail {R : Type} (d : Decoder R) (base tail data : List Nat)
    (hdata : data = base ++ tail) (ht : TailUndecodable d tail) :
    ∀ (m k : Nat) (s : ScanState R), tail.length - k ≤ m → k ≤ tail.length →
      s.pos = base.length + k →
      ∃ j, scanSteps d data m s =
          { pos := base.length + tail.length
            prevPos := s.prevPos
            buffer := s.buffer
            recs := s.recs
            broken := s.broken + j } ∧
        (k < tail.length → 1 ≤ j) := by
  have hlen : data.length = base.length + tail.length := by
    rw [hdata, List.length_append]
  intro m
  induction m with
  | zero =>
    intro k s hm hk hpos
    have hk' : k = tail.length := by omega
    refine ⟨0, ?_, by omega⟩
    cases s
    simp_all [scanSteps]
  | succ n ih =>
    intro k s hm hk hpos
    by_cases hklt : k < tail.length
    · obtain ⟨c, hc1, hc2, hcd⟩ := ht k hklt
      have hposlt : s.pos < data.length := by omega
      have hstep : scanSteps d data (n + 1) s = scanSteps d data n (scanStep d data s) := by
        simp only [scanSteps, if_pos hposlt]
      have hdrop : data.drop s.pos = tail.drop k := by
        rw [hdata, hpos, List.drop_append]
      have hstep2 : scanStep d data s = { s with pos := base.length + (k + c), broken := s.broken + 1 } := by
        simp only [scanStep, hdrop, hcd]
        rw [hpos]
        congr 1
        omega
      obtain ⟨j, hrun, _⟩ := ih (k + c)
        { s with pos := base.length + (k + c), broken := s.broken + 1 }
        (by omega) (by omega) rfl
      refine ⟨1 + j, ?_, fun _ => by omega⟩
      rw [hstep, hstep2, hrun]
      simp only
      congr 1
      omega
    · have hk' : k = tail.length := by omega
      have hnotlt : ¬ s.pos < data.length := by omega
      refine ⟨0, ?_, by omega⟩
      have := scanSteps_absorb d data (n + 1) s hnotlt
      rw [this]
      cases s
      simp_all

/-- Scanning the concatenation of exactly decodable blocks yields exactly
those blocks as `Valid` spans, their records, and no broken record. -/
theorem get_buffer_flatten {R : Type} (d : Decoder R) (bs : List (List Nat × R))
    (hEx : ExactBlocks d bs) :
    get_buffer d ((bs.map Prod.fst).flatten) bs.length =
      some ⟨((bs.map Prod.fst).flatten).length, ((bs.map Prod.fst).flatten).length,
        bs.map Prod.fst, bs.map Prod.snd, 0⟩ := by
  have h := scanSteps_blocks d bs [] [] ((bs.map Prod.fst).flatten) (initScan R) hEx
    (by simp) rfl rfl
  unfold get_buffer
  rw [h]
  simp [initScan]

/-- Lift a permutation of the image of a map to a permutation of the source
list: if `xs.map f` is permuted into `q`, some permutation `xs'` of `xs` maps
exactly onto `q`. -/
theorem exists_perm_preimage {α β : Type} (f : α → β) :
    ∀ {p q : List β}, p.Perm q → ∀ xs : List α, p = xs.map f →
      ∃ xs' : List α, xs'.Perm xs ∧ xs'.map f = q := by
  intro p q hpq
  induction hpq with
  | nil =>
    intro xs h
    exact ⟨xs, List.Perm.refl xs, h.symm⟩
  | cons a h ih =>
    intro xs hx
    cases xs with
    | nil => simp at hx
    | cons x xs' =>
      simp only [List.map_cons, List.cons.injEq] at hx
      obtain ⟨ys, hp, hm⟩ := ih xs' hx.2
      exact ⟨x :: ys, hp.cons x, by simp [hm, hx.1]⟩
  | swap a b l =>
    intro xs hx
    cases xs with
    | nil => simp at hx
    | cons x xs' =>
      cases xs' with
      | nil => simp at hx
      | cons y ys =>
        simp only [List.map_cons, List.cons.injEq] at hx
        exact ⟨y :: x :: ys, List.Perm.swap x y ys,
          by simp [hx.1, hx.2.1, hx.2.2]⟩
  | trans h1 h2 ih1 ih2 =>
    intro xs hx
    obtain ⟨xs₁, hp1, hm1⟩ := ih1 xs hx
    obtain ⟨xs₂, hp2, hm2⟩ := ih2 xs₁ hm1.symm
    exact ⟨xs₂, hp2.trans hp1, hm2⟩

/-- Scanning a run of exactly decodable records followed by an undecodable
tail: the spans are exactly the record blocks, the records are collected, and
the tail only contributes broken-record counts (at least one if nonempty). -/
theorem get_buffer_blocks_tail {R : Type} (d : Decoder R) (bs : List (List Nat × R))
    (tail : List Nat) (hEx : ExactBlocks d bs) (ht : TailUndecodable d tail) :
    ∃ j : Nat,
      get_buffer d ((bs.map Prod.fst).flatten ++ tail) (bs.length + tail.length) =
        some ⟨((bs.map Prod.fst).flatten).length + tail.length,
          ((bs.map Prod.fst).flatten).length, bs.map Prod.fst, bs.map Prod.snd, j⟩ ∧
      (tail ≠ [] → 1 ≤ j) := by
  set J := (bs.map Prod.fst).flatten with hJ
  set data := J ++ tail with hdata
  have h1 := scanSteps_blocks d bs [] tail data (initScan R) hEx (by simp [hdata]) rfl rfl
  have h1' : scanSteps d data bs.length (initScan R) =
      ⟨J.length, J.length, bs.map Prod.fst, bs.map Prod.snd, 0⟩ := by
    rw [h1]
    simp [initScan, hJ]
  obtain ⟨j, h2, hj⟩ := scanSteps_tail d J tail data hdata ht tail.length 0
    ⟨J.length, J.length, bs.map Prod.fst, bs.map Prod.snd, 0⟩
    (by omega) (by omega) (by simp)
  have hfin : scanSteps d data (bs.length + tail.length) (initScan R) =
      ⟨J.length + tail.length, J.length, bs.map Prod.fst, bs.map Prod.snd, j⟩ := by
    rw [scanSteps_add, h1', h2]
    simp
  refine ⟨j, ?_, ?_⟩
  · unfold get_buffer
    rw [hfin]
    have : data.length = J.length + tail.length := by simp [hdata]
    simp [this]
  · intro hne
    exact hj (List.length_pos.mpr hne)

/-! ### Claim C1: round-trip of the valid spans -/

/-- Claim C1 (amended). For a file made of exactly decodable records followed
by an undecodable tail — decode failures only after the last success — the
scan collects exactly the records' byte spans (each `Valid` span is precisely
the bytes of one successful decode) and their decoded records, counts at
least one broken record when the tail is nonempty, and re-scanning the
concatenation of the `Valid` spans yields zero corrupt spans and the same
decoded record sequence. (As originally stated, over every input, the claim
fails: a failure that precedes a success pollutes the next span, see
`c1_roundtrip_counterexample`.) -/
theorem c1_roundtrip {R : Type} (d : Decoder R) (bs : List (List Nat × R)) (tail : List Nat)
    (hEx : ExactBlocks d bs) (ht : TailUndecodable d tail) :
    ∃ st : ScanState R,
      get_buffer d ((bs.map Prod.fst).flatten ++ tail) (bs.length + tail.length) = some st ∧
      st.buffer = bs.map Prod.fst ∧
      st.recs = bs.map Prod.snd ∧
      (tail ≠ [] → 1 ≤ st.broken) ∧
      get_buffer d st.buffer.flatten bs.length =
        some ⟨st.buffer.flatten.length, st.buffer.flatten.length, st.buffer, st.recs, 0⟩ := by
  obtain ⟨j, hscan, hj⟩ := get_buffer_blocks_tail d bs tail hEx ht
  exact ⟨_, hscan, rfl, rfl, hj, get_buffer_flatten d bs hEx⟩

/-- A decode oracle under which byte 7 heads a valid one-byte record and
anything else fails after consuming one byte. -/
def mixedOracle : Decoder Nat := fun l =>
  match l with
  | 7 :: _ => .ok 1 1
  | _ => .err 1

/-- Claim C1 counterexample: on the file `[9, 7]`, the oracle fails at offset
0 consuming the byte 9, then succeeds at offset 1 consuming exactly the byte
7 — yet the single `Valid` span emitted is `[9, 7]`, which includes the byte
of the failed decode attempt, and re-scanning the concatenation of the
`Valid` spans reports 1 corrupt span rather than zero. -/
theorem c1_roundtrip_counterexample :
    mixedOracle [9, 7] = DecodeResult.err 1 ∧
    mixedOracle [7] = DecodeResult.ok 1 1 ∧
    get_buffer mixedOracle [9, 7] 2 = some ⟨2, 2, [[9, 7]], [1], 1⟩ ∧
    get_buffer mixedOracle [[9, 7]].flatten 2 = some ⟨2, 2, [[9, 7]], [1], 1⟩ :=
  ⟨rfl, rfl, rfl, rfl⟩

/-- Witness for `c1_roundtrip` on the file `[7] ++ [9]`: one valid one-byte
record followed by a one-byte undecodable tail. -/
theorem c1_roundtrip_witness :
    ∃ st : ScanState Nat,
      get_buffer mixedOracle (([([7], 1)].map Prod.fst).flatten ++ [9]) (1 + 1) = some st ∧
      st.buffer = [([7], 1)].map Prod.fst ∧
      st.recs = [([7], 1)].map Prod.snd ∧
      ([9] ≠ ([] : List Nat) → 1 ≤ st.broken) ∧
      get_buffer mixedOracle st.buffer.flatten 1 =
        some ⟨st.buffer.flatten.length, st.buffer.flatten.length, st.buffer, st.recs, 0⟩ := by
  exact c1_roundtrip mixedOracle [([7], 1)] [9]
    (by
      intro p hp
      simp only [List.mem_singleton] at hp
      subst hp
      exact ⟨by decide, fun t => rfl⟩)
    (by
      intro k hk
      have hk0 : k = 0 := by simpa using hk
      subst hk0
      exact ⟨1, by decide, by decide, rfl⟩)

/-! ### Claim C2: forward progress of the scan loop -/

/-- A decode oracle that always fails consuming zero bytes: the pathological
behaviour the spec's forward-progress contract is about. -/
def errZeroOracle : Decoder Nat := fun _ => DecodeResult.err 0

theorem scanSteps_errZero_pos (data : List Nat) :
    ∀ (m : Nat) (s : ScanState Nat), (scanSteps errZeroOracle data m s).pos = s.pos := by
  intro m
  induction m with
  | zero => intro s; rfl
  | succ n ih =>
    intro s
    by_cases h : s.pos < data.length
    · simp only [scanSteps, if_pos h]
      rw [ih]
      rfl
    · simp only [scanSteps, if_neg h]

/-- Claim C2 (the code violates it): on a five-byte file none of whose bytes
the oracle can consume, the scan loop of `get_buffer` re-probes offset 0
forever — for every fuel bound the loop has not terminated, instead of
advancing to end of file and reporting the tail as one corrupt span. -/
theorem c2_livelock :
    ∀ fuel : Nat, get_buffer errZeroOracle [0, 0, 0, 0, 0] fuel = none := by
  intro fuel
  unfold get_buffer
  have h := scanSteps_errZero_pos [0, 0, 0, 0, 0] fuel (initScan Nat)
  simp only [h]
  rfl

/-! ### Claim C4: shuffle refuses corrupt files -/

/-- Claim C4. Whenever the scan reports a nonzero corrupt count, `shuffle`
performs no write: the file bytes are returned unchanged, along with the
record count and the corrupt count. -/
theorem c4_corruption_refusal {R : Type} (d : Decoder R)
    (sh : List (List Nat) → List (List Nat)) (data : List Nat) (fuel : Nat)
    (st : ScanState R) (hscan : get_buffer d data fuel = some st)
    (hb : st.broken ≠ 0) :
    shuffleOp d sh data fuel = some (data, st.buffer.length, st.broken) := by
  unfold shuffleOp
  rw [hscan]
  simp [hb]

/-- A decode oracle that always fails after consuming one byte. -/
def errOneOracle : Decoder Nat := fun _ => DecodeResult.err 1

/-- Witness for `c4_corruption_refusal` at a concrete corrupt one-byte file. -/
theorem c4_corruption_refusal_witness :
    shuffleOp errOneOracle id [3] 1 = some ([3], 0, 1) := by
  have h := c4_corruption_refusal errOneOracle id [3] 1 ⟨1, 0, [], [], 1⟩ rfl (by decide)
  exact h

/-! ### Claim C5: shuffle permutes record blocks, preserving content -/

/-- Claim C5. On a corruption-free file (a concatenation of exactly decodable
records) and any permuting shuffler — `SliceRandom::shuffle` with any seed
permutes the span list — `shuffle` rewrites the file as the concatenation of a
permutation of the original record byte blocks: each block is moved unaltered,
the file length is unchanged, and re-scanning the result decodes the same
multiset of records with zero corrupt spans. -/
theorem c5_shuffle_preserves {R : Type} (d : Decoder R) (bs : List (List Nat × R))
    (sh : List (List Nat) → List (List Nat))
    (hEx : ExactBlocks d bs) (hsh : ∀ l, (sh l).Perm l) :
    ∃ bs' : List (List Nat × R), bs'.Perm bs ∧
      shuffleOp d sh ((bs.map Prod.fst).flatten) bs.length =
        some ((bs'.map Prod.fst).flatten, bs.length, 0) ∧
      ((bs'.map Prod.fst).flatten).length = ((bs.map Prod.fst).flatten).length ∧
      (bs'.map Prod.snd).Perm (bs.map Prod.snd) ∧
      get_buffer d ((bs'.map Prod.fst).flatten) bs.length =
        some ⟨((bs'.map Prod.fst).flatten).length, ((bs'.map Prod.fst).flatten).length,
          bs'.map Prod.fst, bs'.map Prod.snd, 0⟩ := by
  have hperm : (bs.map Prod.fst).Perm (sh (bs.map Prod.fst)) := (hsh _).symm
  obtain ⟨bs', hbs', hmap⟩ := exists_perm_preimage Prod.fst hperm bs rfl
  have hlen : bs'.length = bs.length := hbs'.length_eq
  have hEx' : ExactBlocks d bs' := fun p hp => hEx p (hbs'.subset hp)
  refine ⟨bs', hbs', ?_, ?_, hbs'.map Prod.snd, ?_⟩
  · unfold shuffleOp
    rw [get_buffer_flatten d bs hEx]
    simp [hmap, write_buffer]
  · exact ((hbs'.map Prod.fst).flatten).length_eq
  · rw [← hlen]
    exact get_buffer_flatten d bs' hEx'

/-- A decode oracle with two valid one-byte records, headed by bytes 1 and
2. -/
def twoBlockOracle : Decoder Nat := fun l =>
  match l with
  | 1 :: _ => .ok 10 1
  | 2 :: _ => .ok 20 1
  | _ => .err 0

/-- Witness for `c5_shuffle_preserves` on a clean two-record file with the
reversing shuffler. -/
theorem c5_shuffle_preserves_witness :
    ∃ bs' : List (List Nat × Nat), bs'.Perm [([1], 10), ([2], 20)] ∧
      shuffleOp twoBlockOracle List.reverse
          (([([1], 10), ([2], 20)].map Prod.fst).flatten) 2 =
        some ((bs'.map Prod.fst).flatten, 2, 0) ∧
      ((bs'.map Prod.fst).flatten).length =
        (([([1], 10), ([2], 20)].map Prod.fst).flatten).length ∧
      (bs'.map Prod.snd).Perm ([([1], 10), ([2], 20)].map Prod.snd) ∧
      get_buffer twoBlockOracle ((bs'.map Prod.fst).flatten) 2 =
        some ⟨((bs'.map Prod.fst).flatten).length, ((bs'.map Prod.fst).flatten).length,
          bs'.map Prod.fst, bs'.map Prod.snd, 0⟩ := by
  exact c5_shuffle_preserves twoBlockOracle [([1], 10), ([2], 20)] List.reverse
    (by
      intro p hp
      simp only [List.mem_cons, List.mem_singleton, List.not_mem_nil, or_false] at hp
      rcases hp with h | h
      · subst h; exact ⟨by decide, fun t => rfl⟩
      · subst h; exact ⟨by decide, fun t => rfl⟩)
    (fun l => l.reverse_perm)

/-! ### Lemmas about the `count` loop -/

/-- The `count` loop decodes one record per iteration over a run of exactly
decodable blocks, folding the per-game update over the decoded games. -/
theorem countLoop_blocks {P M : Type} (d : Decoder (Game P M)) (ru : Rules P M)
    (quick : Bool) (limit : Int) :
    ∀ (bs : List (List Nat × Game P M)) (pre rest data : List Nat) (f : Nat)
      (acc : Stats × Heatmap),
      ExactBlocks d bs →
      data = pre ++ (bs.map Prod.fst).flatten ++ rest →
      countLoop d ru quick limit data (bs.length + f) pre.length acc =
        countLoop d ru quick limit data f
          (pre.length + ((bs.map Prod.fst).flatten).length)
          (List.foldl (stepGame ru quick limit) acc (bs.map Prod.snd)) := by
  intro bs
  induction bs with
  | nil =>
    intro pre rest data f acc _ hdata
    simp
  | cons hd tl ih =>
    intro pre rest data f acc hEx hdata
    obtain ⟨b, g⟩ := hd
    have hb : ExactBlock d b g := hEx (b, g) (List.mem_cons_self _ _)
    have htl : ExactBlocks d tl := fun p hp => hEx p (List.mem_cons_of_mem _ hp)
    have hdata' : data = pre ++ (b ++ ((tl.map Prod.fst).flatten ++ rest)) := by
      simp only [hdata, List.map_cons, List.flatten_cons, List.append_assoc]
    have hlen : pre.length < data.length := by
      rw [hdata']
      simp only [List.length_append]
      have := hb.1
      omega
    have hdec : d (data.drop pre.length) = .ok g b.length := by
      rw [hdata', List.drop_left]
      exact hb.2 _
    have hfuel : ((b, g) :: tl).length + f = (tl.length + f) + 1 := by
      simp only [List.length_cons]
      omega
    rw [hfuel]
    have hstep : countLoop d ru quick limit data ((tl.length + f) + 1) pre.length acc =
        countLoop d ru quick limit data (tl.length + f) (pre.length + b.length)
          (stepGame ru quick limit acc g) := by
      simp only [countLoop, if_pos hlen, hdec]
    rw [hstep]
    have := ih (pre ++ b) rest data f (stepGame ru quick limit acc g) htl
      (by rw [hdata']; simp [List.append_assoc])
    simp only [List.length_append] at this
    rw [this]
    simp only [List.map_cons, List.flatten_cons, List.length_append, List.foldl_cons,
      Nat.add_assoc]

theorem sumHeat_bump (h : Heatmap) (k : Fin 81) : sumHeat (bump h k) = sumHeat h + 1 := by
  unfold sumHeat bump
  rw [Finset.sum_update_of_mem (Finset.mem_univ k)]
  rw [Finset.sdiff_singleton_eq_erase]
  rw [← Finset.add_sum_erase _ h (Finset.mem_univ k)]
  omega

theorem sumHeat_moveFold {P M : Type} (ru : Rules P M) :
    ∀ (mvs : List (M × Int)) (p : P) (h : Heatmap),
      sumHeat ((mvs.foldl (replayStep ru) (p, h)).2) = sumHeat h + mvs.length := by
  intro mvs
  induction mvs with
  | nil =>
    intro p h
    simp [sumHeat]
  | cons mv tl ih =>
    intro p h
    simp only [List.foldl_cons]
    rw [show replayStep ru (p, h) mv
        = (ru.applyMove p mv.1, bump h (kingObs ru (ru.applyMove p mv.1))) from rfl]
    rw [ih, sumHeat_bump]
    simp only [List.length_cons]
    omega

theorem sumHeat_replayGame {P M : Type} (ru : Rules P M) (g : Game P M) (h : Heatmap) :
    sumHeat (replayGame ru g h) = sumHeat h + 1 + g.moves.length := by
  unfold replayGame
  rw [sumHeat_moveFold, sumHeat_bump]

theorem sumHeat_gameFold {P M : Type} (ru : Rules P M) (limit : Int) :
    ∀ (gs : List (Game P M)) (acc : Stats × Heatmap),
      sumHeat ((gs.foldl (stepGame ru false limit) acc).2) =
        sumHeat acc.2 + gs.length + (gs.map (fun g => g.moves.length)).sum := by
  intro gs
  induction gs with
  | nil =>
    intro acc
    simp
  | cons g tl ih =>
    intro acc
    simp only [List.foldl_cons]
    rw [show stepGame ru false limit acc g
        = (updStats limit g acc.1, replayGame ru g acc.2) from rfl]
    rw [ih]
    show sumHeat (replayGame ru g acc.2) + tl.length + _ = _
    rw [sumHeat_replayGame]
    simp only [List.length_cons, List.map_cons, List.sum_cons]
    omega

/-! ### Claim C3: decode failures are recovered in scanner-based passes but
propagated by the statistics pass -/

/-- A rules engine with trivial collaborators, for concrete instantiations. -/
def trivialRules : Rules Unit Unit :=
  ⟨fun _ => Color.SENTE, fun _ _ => 0, id, fun p _ => p⟩

/-- A decode oracle for games that always fails after consuming one byte. -/
def errOneGameOracle : Decoder (Game Unit Unit) := fun _ => DecodeResult.err 1

/-- Claim C3 counterexample: on the one-byte file `[9]` whose record cannot be
decoded, the statistics pass `count` propagates the decode failure as a hard
error aborting the pass — while the scanner used by repair and shuffle
recovers it locally as one broken record and finishes the file. -/
theorem c3_counterexample :
    countFile errOneGameOracle trivialRules true 25001 [9] 1 ⟨0, 0, 0, 0, 0⟩
        (fun _ => 0) = some (Except.error ()) ∧
    get_buffer errOneGameOracle [9] 1 = some ⟨1, 0, [], [], 1⟩ :=
  ⟨rfl, rfl⟩

/-- Claim C3 (amended). For the scanner-based passes, `fix` and `shuffle`, a
per-record decode failure is recovered locally: the broken records of an
undecodable tail are accumulated into the corruption counter, every decodable
record is still processed, and the pass returns normally. The statistics pass
`count`, however, propagates the first decode failure as a hard error that
aborts the pass (the claim fails as stated for `count`, see
`c3_counterexample`). -/
theorem c3_decode_failure_handling {P M : Type} (d : Decoder (Game P M)) (ru : Rules P M)
    (quick : Bool) (limit : Int) (sh : List (List Nat) → List (List Nat))
    (bs : List (List Nat × Game P M)) (tail : List Nat) (s : Stats) (h : Heatmap)
    (hEx : ExactBlocks d bs) (ht : TailUndecodable d tail) (hne : tail ≠ []) :
    ∃ j : Nat, 1 ≤ j ∧
      fixOp d ((bs.map Prod.fst).flatten ++ tail) (bs.length + tail.length) =
        some ((bs.map Prod.fst).flatten, bs.length, j, tail.length) ∧
      shuffleOp d sh ((bs.map Prod.fst).flatten ++ tail) (bs.length + tail.length) =
        some ((bs.map Prod.fst).flatten ++ tail, bs.length, j) ∧
      countFile d ru quick limit ((bs.map Prod.fst).flatten ++ tail)
          (bs.length + tail.length) s h = some (.error ()) := by
  obtain ⟨j, hscan, hj⟩ := get_buffer_blocks_tail d bs tail hEx ht
  have hj1 : 1 ≤ j := hj hne
  have hjne : j ≠ 0 := by omega
  refine ⟨j, hj1, ?_, ?_, ?_⟩
  · unfold fixOp
    rw [hscan]
    simp [hjne, write_buffer, Nat.add_sub_cancel_left]
  · unfold shuffleOp
    rw [hscan]
    simp [hjne]
  · unfold countFile
    have hb := countLoop_blocks d ru quick limit bs [] tail
      ((bs.map Prod.fst).flatten ++ tail) tail.length (s, h) hEx (by simp)
    simp only [List.length_nil, Nat.zero_add] at hb
    rw [hb]
    obtain ⟨c, hc1, hc2, hcd⟩ := ht 0 (List.length_pos.mpr hne)
    obtain ⟨t, htl⟩ : ∃ t, tail.length = t + 1 :=
      ⟨tail.length - 1, by omega⟩
    rw [htl]
    have hpos : ((bs.map Prod.fst).flatten).length <
        ((bs.map Prod.fst).flatten ++ tail).length := by
      simp only [List.length_append]
      omega
    have hcd' : d (((bs.map Prod.fst).flatten ++ tail).drop
        ((bs.map Prod.fst).flatten).length) = .err c := by
      rw [List.drop_left]
      simpa using hcd
    simp only [countLoop, if_pos hpos, hcd']

/-- A decodable one-byte record for the C3 witness. -/
def c3Game : Game Unit Unit := ⟨(), Outcome.Draw, []⟩

/-- A decode oracle under which byte 7 heads a valid one-byte record and
anything else fails after consuming one byte. -/
def c3Oracle : Decoder (Game Unit Unit) := fun l =>
  match l with
  | 7 :: _ => .ok c3Game 1
  | _ => .err 1

/-- Witness for `c3_decode_failure_handling` on the file `[7] ++ [9]`. -/
theorem c3_decode_failure_handling_witness :
    ∃ j : Nat, 1 ≤ j ∧
      fixOp c3Oracle (([([7], c3Game)].map Prod.fst).flatten ++ [9]) (1 + 1) =
        some (([([7], c3Game)].map Prod.fst).flatten, 1, j, 1) ∧
      shuffleOp c3Oracle id (([([7], c3Game)].map Prod.fst).flatten ++ [9]) (1 + 1) =
        some ((([([7], c3Game)].map Prod.fst).flatten ++ [9]), 1, j) ∧
      countFile c3Oracle trivialRules true 0 (([([7], c3Game)].map Prod.fst).flatten ++ [9])
          (1 + 1) ⟨0, 0, 0, 0, 0⟩ (fun _ => 0) = some (.error ()) := by
  exact c3_decode_failure_handling c3Oracle trivialRules true 0 id [([7], c3Game)] [9]
    ⟨0, 0, 0, 0, 0⟩ (fun _ => 0)
    (by
      intro p hp
      simp only [List.mem_singleton] at hp
      subst hp
      exact ⟨by decide, fun t => rfl⟩)
    (by
      intro k hk
      have hk0 : k = 0 := by simpa using hk
      subst hk0
      exact ⟨1, by decide, by decide, rfl⟩)
    (by simp)

/-! ### Claim C9: heatmap conservation -/

/-- Claim C9. With `quick = false`, processing a file of fully decodable games
adds exactly one heatmap observation per game (its start position) plus one
per move, replayed in recorded order: the sum of the 81 bins grows by
`N + M`. -/
theorem c9_heatmap_conservation {P M : Type} (d : Decoder (Game P M)) (ru : Rules P M)
    (limit : Int) (bs : List (List Nat × Game P M)) (s : Stats) (h : Heatmap)
    (hEx : ExactBlocks d bs) :
    ∃ r : Stats × Heatmap,
      countFile d ru false limit ((bs.map Prod.fst).flatten) bs.length s h =
        some (.ok r) ∧
      sumHeat r.2 = sumHeat h + bs.length +
        ((bs.map Prod.snd).map (fun g => g.moves.length)).sum := by
  have hb := countLoop_blocks d ru false limit bs [] []
    ((bs.map Prod.fst).flatten) 0 (s, h) hEx (by simp)
  simp only [List.length_nil, Nat.zero_add, Nat.add_zero] at hb
  have hend : countLoop d ru false limit ((bs.map Prod.fst).flatten) 0
      ((bs.map Prod.fst).flatten).length
      (List.foldl (stepGame ru false limit) (s, h) (bs.map Prod.snd)) =
      some (.ok (List.foldl (stepGame ru false limit) (s, h) (bs.map Prod.snd))) := by
    simp [countLoop]
  refine ⟨List.foldl (stepGame ru false limit) (s, h) (bs.map Prod.snd), ?_, ?_⟩
  · unfold countFile
    rw [hb, hend]
  · rw [sumHeat_gameFold]
    simp

/-- A one-move game and its decode oracle for the C9 witness. -/
def oneGame : Game Unit Unit := ⟨(), Outcome.Draw, [((), 0)]⟩

def oneGameOracle : Decoder (Game Unit Unit) := fun l =>
  match l with
  | _ :: _ => .ok oneGame 1
  | [] => .err 0

/-- Witness for `c9_heatmap_conservation`: one game with one move adds two
observations. -/
theorem c9_heatmap_conservation_witness :
    ∃ r : Stats × Heatmap,
      countFile oneGameOracle trivialRules false 25001
          (([([5], oneGame)].map Prod.fst).flatten) 1 ⟨0, 0, 0, 0, 0⟩ (fun _ => 0) =
        some (.ok r) ∧
      sumHeat r.2 = sumHeat (fun _ => 0) + 1 +
        (([([5], oneGame)].map Prod.snd).map (fun g => g.moves.length)).sum := by
  exact c9_heatmap_conservation oneGameOracle trivialRules 25001 [([5], oneGame)]
    ⟨0, 0, 0, 0, 0⟩ (fun _ => 0)
    (by
      intro p hp
      simp only [List.mem_singleton] at hp
      subst hp
      exact ⟨by decide, fun t => rfl⟩)

/-! ### Claims C6, C7, C8: position counting and reversal detection -/

theorem wrap16_eq_self {x : Int} (h1 : -32768 ≤ x) (h2 : x ≤ 32767) : wrap16 x = x := by
  unfold wrap16
  have h0 : 0 ≤ x + 32768 := by omega
  have hlt : x + 32768 < 65536 := by omega
  rw [Int.emod_eq_of_lt h0 hlt]
  omega

theorem absI16_eq_abs {s : Int} (h1 : -32768 < s) (h2 : s ≤ 32767) : absI16 s = |s| := by
  unfold absI16
  apply wrap16_eq_self
  · rcases abs_cases s with ⟨h, _⟩ | ⟨h, _⟩ <;> omega
  · rcases abs_cases s with ⟨h, _⟩ | ⟨h, _⟩ <;> omega

theorem negI16_eq_neg {e : Int} (h1 : -32768 < e) (h2 : e ≤ 32767) : negI16 e = -e := by
  unfold negI16
  apply wrap16_eq_self <;> omega

/-- A game whose single move carries the score `i16::MIN`. -/
def minScoreGame : Game Unit Unit := ⟨(), Outcome.Draw, [((), -32768)]⟩

/-- Claim C6 counterexample: a move scored `-32768` has mathematical absolute
value `32768 > 25001`, so by the claim it must not be counted — but the
source's `score.abs()` wraps `-32768` to `-32768 ≤ 25001`, so the move is
counted: the game contributes 2 positions, the claim predicts 1. -/
theorem c6_positions_counterexample :
    gamePositions 25001 minScoreGame = 2 ∧ specPositions 25001 minScoreGame = 1 := by
  constructor <;> decide

/-- Claim C6 (amended). A game contributes 1 (its start position) plus the
number of moves whose wrapped `i16` absolute score is within `eval_limit`;
for games none of whose scores is `-32768` this is exactly the claimed count
with the mathematical absolute value (the score `-32768` is instead always
counted, see `c6_positions_counterexample`). -/
theorem c6_positions {P M : Type} (limit : Int) (g : Game P M)
    (hs : ∀ p ∈ g.moves, -32768 < p.2 ∧ p.2 ≤ 32767) :
    gamePositions limit g = specPositions limit g := by
  unfold gamePositions specPositions
  rw [Nat.add_comm]
  congr 2
  apply List.filter_congr
  intro p hp
  have h := hs p hp
  rw [absI16_eq_abs h.1 h.2]

/-- Witness game for `c6_positions` with in-range scores. -/
def c6Game : Game Unit Unit := ⟨(), Outcome.Draw, [((), 500), ((), -500)]⟩

/-- Witness for `c6_positions`: with `eval_limit = 400`, neither score of
`c6Game` is within range, so only the start position counts. -/
theorem c6_positions_witness :
    gamePositions 400 c6Game = specPositions 400 c6Game ∧ specPositions 400 c6Game = 1 :=
  ⟨c6_positions 400 c6Game (by decide), by decide⟩

/-- The game of the spec's position-counting example: three moves scored
`[100, 26000, -100]`. -/
def c7Game : Game Unit Unit := ⟨(), Outcome.Draw, [((), 100), ((), 26000), ((), -100)]⟩

/-- Zeroed tallies. -/
def statsZero : Stats := ⟨0, 0, 0, 0, 0⟩

/-- Claim C7 counterexample: the aggregator does not add 4 positions at
`eval_limit = 25001` (since `26000 > 25001` that move is excluded), nor 2 at
`eval_limit = 1000` (the start position and both in-range moves count). -/
theorem c7_position_example_counterexample :
    ¬ ((updStats 25001 c7Game statsZero).positions = statsZero.positions + 4 ∧
       (updStats 1000 c7Game statsZero).positions = statsZero.positions + 2) := by
  decide

/-- Claim C7 (amended). For moves scored `[100, 26000, -100]` the aggregator
adds 3 positions at `eval_limit = 25001` (start plus the moves scored 100 and
-100; 26000 exceeds the limit) and likewise 3 at `eval_limit = 1000`. -/
theorem c7_position_example :
    (updStats 25001 c7Game statsZero).positions = statsZero.positions + 3 ∧
    (updStats 1000 c7Game statsZero).positions = statsZero.positions + 3 := by
  decide

theorem filter_length_pos_iff {α : Type} (p : α → Bool) (l : List α) :
    0 < (l.filter p).length ↔ ∃ a ∈ l, p a = true := by
  rw [List.length_pos]
  constructor
  · intro hne
    rcases List.exists_mem_of_ne_nil _ hne with ⟨a, ha⟩
    rcases List.mem_filter.mp ha with ⟨hm, hp⟩
    exact ⟨a, hm, hp⟩
  · rintro ⟨a, hm, hp⟩
    intro hnil
    have hmem : a ∈ l.filter p := List.mem_filter.mpr ⟨hm, hp⟩
    rw [hnil] at hmem
    exact List.not_mem_nil a hmem

/-- A black-win game with one neutrally scored move, for the C8 edge case. -/
def c8EdgeGame : Game Unit Unit := ⟨(), Outcome.SenteWin, [((), 0)]⟩

/-- Claim C8 counterexample: at `eval_limit = -32768` the source's
`-eval_limit` wraps back to `-32768`, so a black-win game with a move scored 0
is not flagged — while the claim's threshold `-eval_limit = 32768` would flag
it. -/
theorem c8_reversal_counterexample :
    gameIsReversal (-32768) c8EdgeGame = false ∧ specReversal (-32768) c8EdgeGame := by
  constructor <;> decide

/-- Claim C8 (amended). For every `eval_limit` other than `-32768` (where the
source's negation wraps, see `c8_reversal_counterexample`), a game is counted
as a reversal exactly when it is a black win with some score `≤ -eval_limit`
or a white win with some score `≥ eval_limit`; a draw is never a reversal.
The per-game contribution is a single flag, so a game adds at most one
reversal however many qualifying moves it has. -/
theorem c8_reversal_iff {P M : Type} (limit : Int) (g : Game P M)
    (h1 : -32768 < limit) (h2 : limit ≤ 32767) :
    (gameIsReversal limit g = true ↔ specReversal limit g) ∧
    (g.wdl = Outcome.Draw → gameIsReversal limit g = false) := by
  have hneg : negI16 limit = -limit := negI16_eq_neg h1 h2
  constructor
  · unfold gameIsReversal specReversal
    rw [hneg]
    simp only [Bool.or_eq_true, Bool.and_eq_true, decide_eq_true_eq, filter_length_pos_iff]
  · intro hd
    unfold gameIsReversal
    rw [hd]
    simp

/-- The spec's synthetic reversal example as a black win. -/
def c8BlackWinGame : Game Unit Unit :=
  ⟨(), Outcome.SenteWin, [((), 50), ((), -30000), ((), 10)]⟩

/-- The spec's synthetic reversal example as a white win. -/
def c8WhiteWinGame : Game Unit Unit :=
  ⟨(), Outcome.SenteLoss, [((), 50), ((), -30000), ((), 10)]⟩

/-- Witness for `c8_reversal_iff`: at `eval_limit = 25000` the moves
`[50, -30000, 10]` flag a black win (score `-30000 ≤ -25000`) but not a white
win. -/
theorem c8_reversal_iff_witness :
    gameIsReversal 25000 c8BlackWinGame = true ∧
    gameIsReversal 25000 c8WhiteWinGame = false := by
  constructor
  · exact (c8_reversal_iff 25000 c8BlackWinGame (by norm_num) (by norm_num)).1.mpr
      (by decide)
  · have h := (c8_reversal_iff 25000 c8WhiteWinGame (by norm_num) (by norm_num)).1
    cases hb : gameIsReversal 25000 c8WhiteWinGame
    · rfl
    · exact absurd (h.mp hb) (by decide)

/-! ### Claim C10: fixed-files accounting -/

theorem mainFixCounts_aux :
    ∀ (l : List Nat) (tb ff : Nat), tb ≠ 0 →
      (l.foldl fixFold (tb, ff)).2 = ff + l.length := by
  intro l
  induction l with
  | nil =>
    intro tb ff _
    simp
  | cons b tl ih =>
    intro tb ff h
    simp only [List.foldl_cons]
    have ht : tb + b ≠ 0 := by omega
    rw [show fixFold (tb, ff) b = (tb + b, ff + 1) from by simp [fixFold, ht]]
    rw [ih _ _ ht]
    simp only [List.length_cons]
    omega

/-- Claim C10. In fix mode, `fixed_files` is bumped for a file exactly when
the cumulative broken-record total over the batch so far is nonzero: the
reported count equals the number of files from the first file with a broken
record onward (and 0 when no file has broken records, since then
`findIdx = length`) — so clean files after the first broken one are counted as
fixed even though they were not rewritten. -/
theorem c10_fixed_files_count :
    ∀ brokens : List Nat,
      (mainFixCounts brokens).2 =
        brokens.length - brokens.findIdx (fun b => decide (b ≠ 0)) := by
  intro brokens
  unfold mainFixCounts
  induction brokens with
  | nil => simp
  | cons b tl ih =>
    by_cases hb : b = 0
    · subst hb
      simp only [List.foldl_cons]
      rw [show fixFold (0, 0) 0 = (0, 0) from by simp [fixFold]]
      rw [ih, List.findIdx_cons]
      simp only [decide_not, decide_eq_true_eq]
      norm_num
      omega
    · simp only [List.foldl_cons]
      rw [show fixFold (0, 0) b = (0 + b, 1) from by simp [fixFold, hb]]
      rw [mainFixCounts_aux tl (0 + b) 1 (by omega)]
      rw [List.findIdx_cons]
      simp [hb]
      omega

end SpkTools
